import Mathlib

/-!
Verification of the analytics and event-alignment core of the pre-earnings
diagnostics program (`src/analytics.py`, `src/earnings_moves.py`,
`src/underlying_store.py`).

Shallow embedding conventions:
* Python `datetime.date` values are `PDate` (year/month/day, compared
  lexicographically, exactly as Python compares dates).
* Python floats are embedded as `ℚ` for the price/percentile arithmetic and
  as `ℝ` for the volatility estimator (which uses `log` and `sqrt`).
* `None` is `Option.none`; functions that can raise return `Option` with
  `none` for the raising run.
* The SQLite table read by `load_all_dates_closes` is materialized as a list
  of `DbRow`; the `WHERE symbol = ? ORDER BY trade_date ASC` query is
  filter-then-sort.
* Python string ops are modelled character-wise on `String.data`.
-/

/-- A calendar date as produced by `datetime.strptime(d, "%Y-%m-%d").date()`. -/
structure PDate where
  y : ℕ
  m : ℕ
  d : ℕ
deriving DecidableEq, Repr

/-- Python `date` comparison: lexicographic on (year, month, day). -/
def PDate.lt (a b : PDate) : Prop :=
  a.y < b.y ∨ (a.y = b.y ∧ (a.m < b.m ∨ (a.m = b.m ∧ a.d < b.d)))

instance : LT PDate := ⟨PDate.lt⟩

instance (a b : PDate) : Decidable (a < b) :=
  decidable_of_iff (a.y < b.y ∨ (a.y = b.y ∧ (a.m < b.m ∨ (a.m = b.m ∧ a.d < b.d)))) Iff.rfl

instance : LE PDate := ⟨fun a b => a < b ∨ a = b⟩

instance (a b : PDate) : Decidable (a ≤ b) :=
  decidable_of_iff (a < b ∨ a = b) Iff.rfl

/-- Digit list to number, e.g. `['2','0','2','4'] ↦ 2024`. -/
def csToNat (cs : List Char) : ℕ :=
  cs.foldl (fun n c => 10 * n + (c.toNat - '0'.toNat)) 0

/-- Python `str.upper()` (ASCII case, character-wise). -/
def pyUpper (s : String) : String := ⟨s.data.map Char.toUpper⟩

/-- Split a character list on a separator character (Python `str.split(sep)`). -/
def splitCharAux (sep : Char) : List Char → List Char → List (List Char)
  | [], acc => [acc.reverse]
  | c :: cs, acc =>
    if c = sep then acc.reverse :: splitCharAux sep cs []
    else splitCharAux sep cs (c :: acc)

/-- Split a string on `'|'`; inverse of the pipe-join used for the note field. -/
def splitPipe (s : String) : List String :=
  (splitCharAux '|' s.data []).map fun cs => ⟨cs⟩

/-- Gregorian leap-year rule used by `datetime`. -/
def isLeapYear (y : ℕ) : Bool :=
  y % 4 = 0 && (y % 100 ≠ 0 || y % 400 = 0)

/-- Days in a month, as validated by the `datetime.date` constructor. -/
def daysInMonth (y m : ℕ) : ℕ :=
  if m = 2 then (if isLeapYear y then 29 else 28)
  else if m = 4 ∨ m = 6 ∨ m = 9 ∨ m = 11 then 30
  else 31

/-- `_parse_date` (src/earnings_moves.py:40): `datetime.strptime(d, "%Y-%m-%d").date()`.
`%Y` matches exactly four digits, `%m`/`%d` one or two digits, and the
`date` constructor validates ranges; `none` models the `ValueError` raise. -/
def _parse_date (s : String) : Option PDate :=
  match splitCharAux '-' s.data [] with
  | [ys, ms, dcs] =>
    if ys.length = 4 ∧ ys.all Char.isDigit ∧
       (ms.length = 1 ∨ ms.length = 2) ∧ ms.all Char.isDigit ∧
       (dcs.length = 1 ∨ dcs.length = 2) ∧ dcs.all Char.isDigit then
      let y := csToNat ys
      let m := csToNat ms
      let d := csToNat dcs
      if 1 ≤ y ∧ 1 ≤ m ∧ m ≤ 12 ∧ 1 ≤ d ∧ d ≤ daysInMonth y m then
        some ⟨y, m, d⟩
      else none
    else none
  | _ => none

/-- The backward scan of `_nearest_trading_dates` (src/earnings_moves.py:82-86):
`for i in range(len(dates_sorted) - 1, -1, -1): if _parse_date(dates_sorted[i]) <= t: idx = i; break`.
Examines index `i` and recurses downward; the outer `none` models the
`ValueError` raised when an examined date string does not parse, the inner
`Option ℕ` is the Python `idx` (possibly still `None`). -/
def scanBack (dates_sorted : List String) (t : PDate) : ℕ → Option (Option ℕ)
  | 0 =>
    match _parse_date (dates_sorted.getD 0 "") with
    | none => none
    | some d => if d ≤ t then some (some 0) else some none
  | i + 1 =>
    match _parse_date (dates_sorted.getD (i + 1) "") with
    | none => none
    | some d => if d ≤ t then some (some (i + 1)) else scanBack dates_sorted t i

/-- `_nearest_trading_dates` (src/earnings_moves.py:68-93). Given trading dates
sorted ascending and a calendar target date, returns `(D-1, D0, D+1)`;
the outer `none` models the `ValueError` raise on an unparsable date. -/
def _nearest_trading_dates (dates_sorted : List String) (target : String) :
    Option (Option String × Option String × Option String) :=
  if dates_sorted = [] then some (none, none, none)
  else
    match _parse_date target with
    | none => none
    | some t =>
      match scanBack dates_sorted t (dates_sorted.length - 1) with
      | none => none
      | some none => some (none, none, none)
      | some (some idx) =>
        some (if idx = 0 then none else some (dates_sorted.getD (idx - 1) ""),
              some (dates_sorted.getD idx ""),
              if idx + 1 < dates_sorted.length then some (dates_sorted.getD (idx + 1) "")
              else none)

/-- `EarningsEventMove` (src/earnings_moves.py:11-25), a frozen dataclass. -/
structure EarningsEventMove where
  earnings_date : String
  timing : String
  d_m1 : Option String
  d0 : Option String
  d_p1 : Option String
  close_dm1 : Option ℚ
  close_d0 : Option ℚ
  close_dp1 : Option ℚ
  move_bmo_like_pct : Option ℚ
  move_amc_like_pct : Option ℚ
  move_used_pct : Option ℚ
  used_window : Option String
  note : String
deriving DecidableEq, Repr

/-- `close_by_date.get(dm1) if dm1 else None` (src/earnings_moves.py:111-113):
Python truthiness makes both `None` and `""` skip the lookup. -/
def getClose (close_by_date : String → Option ℚ) : Option String → Option ℚ
  | none => none
  | some d => if d = "" then none else close_by_date d

/-- One candidate move (src/earnings_moves.py:121-129):
`abs((cb / ca) - 1.0)` when `ca and cb and ca > 0 and cb > 0` (float
truthiness: `None` and `0.0` are falsy, so the guard is exactly "both
present and strictly positive"); `None` otherwise. -/
def candidateMove (ca cb : Option ℚ) : Option ℚ :=
  match ca, cb with
  | some a, some b => if 0 < a ∧ 0 < b then some |b / a - 1| else none
  | _, _ => none

/-- The unknown-timing selection branch (src/earnings_moves.py:139-150):
larger candidate wins, ties (`move_bmo >= move_amc`) go to the BMO-like one. -/
def unknownSelect (move_bmo move_amc : Option ℚ) : Option ℚ × Option String :=
  match move_bmo, move_amc with
  | some b, some a => if a ≤ b then (some b, some "BMO_like") else (some a, some "AMC_like")
  | some b, none => (some b, some "BMO_like")
  | none, some a => (some a, some "AMC_like")
  | none, none => (none, none)

/-- Timing-based selection (src/earnings_moves.py:131-150). -/
def selectUsed (t : String) (move_bmo move_amc : Option ℚ) : Option ℚ × Option String :=
  if t = "BMO" then (move_bmo, some "BMO_like")
  else if t = "AMC" then (move_amc, some "AMC_like")
  else unknownSelect move_bmo move_amc

/-- `(timing or "UNKNOWN").upper()` (src/earnings_moves.py:131): Python `or`
replaces falsy values (`None` and `""`) by `"UNKNOWN"`. -/
def timingNorm (timing : Option String) : String :=
  pyUpper (match timing with
           | none => "UNKNOWN"
           | some s => if s = "" then "UNKNOWN" else s)

/-- The loop body of `compute_earnings_moves_from_db` after the
`_nearest_trading_dates` call (src/earnings_moves.py:111-168), as a function
of the resolved `(D-1, D0, D+1)` triple. -/
def mkFromTriple (close_by_date : String → Option ℚ) (edate : String)
    (timing : Option String)
    (tri : Option String × Option String × Option String) : EarningsEventMove :=
  let c_dm1 := getClose close_by_date tri.1
  let c_d0 := getClose close_by_date tri.2.1
  let c_dp1 := getClose close_by_date tri.2.2
  let move_bmo := candidateMove c_dm1 c_d0
  let move_amc := candidateMove c_d0 c_dp1
  let note_parts := (if move_bmo = none then ["missing_bmo_inputs"] else []) ++
                    (if move_amc = none then ["missing_amc_inputs"] else [])
  let t := timingNorm timing
  let uw := selectUsed t move_bmo move_amc
  { earnings_date := edate
    timing := t
    d_m1 := tri.1
    d0 := tri.2.1
    d_p1 := tri.2.2
    close_dm1 := c_dm1
    close_d0 := c_d0
    close_dp1 := c_dp1
    move_bmo_like_pct := move_bmo
    move_amc_like_pct := move_amc
    move_used_pct := uw.1
    used_window := uw.2
    note := if note_parts = [] then "" else String.intercalate "|" note_parts }

/-- One iteration of the loop of `compute_earnings_moves_from_db`
(src/earnings_moves.py:108-168); `none` models a `ValueError` raise from
`_nearest_trading_dates`. -/
def mkEventMove (dates_sorted : List String) (close_by_date : String → Option ℚ)
    (ev : String × Option String) : Option EarningsEventMove :=
  (_nearest_trading_dates dates_sorted ev.1).map (mkFromTriple close_by_date ev.1 ev.2)

/-- The loop of `compute_earnings_moves_from_db` (src/earnings_moves.py:107-170)
over the already-loaded trading-date index and close mapping; `none` models
an uncaught exception (the whole call raises, no partial output). -/
def compute_earnings_moves (dates_sorted : List String)
    (close_by_date : String → Option ℚ) :
    List (String × Option String) → Option (List EarningsEventMove)
  | [] => some []
  | ev :: rest =>
    match mkEventMove dates_sorted close_by_date ev with
    | none => none
    | some r =>
      match compute_earnings_moves dates_sorted close_by_date rest with
      | none => none
      | some l => some (r :: l)

/-- A row of the `underlying_daily` SQLite table (src/underlying_store.py:10-18). -/
structure DbRow where
  trade_date : String
  symbol : String
  close : ℚ
  volume : ℤ
deriving DecidableEq, Repr

/-- Python word character, for the `\b` boundary of the regexes. -/
def wordChar (c : Char) : Bool := c.isAlphanum || c = '_'

/-- Lead digit-or-hyphen shape check for `^\d{4}-\d{2}-\d{2}`. -/
def hyphenShape (cs : List Char) : Bool :=
  match cs with
  | [a, b, c, d, h1, e, f, h2, g, h] =>
    a.isDigit && b.isDigit && c.isDigit && d.isDigit && h1 = '-' &&
    e.isDigit && f.isDigit && h2 = '-' && g.isDigit && h.isDigit
  | _ => false

/-- Python `str.strip()` over a character list. -/
def pyStrip (cs : List Char) : List Char :=
  ((cs.dropWhile Char.isWhitespace).reverse.dropWhile Char.isWhitespace).reverse

/-- `_normalize_trade_date` (src/underlying_store.py:28-42): empty strings are
rejected, else the input is stripped and matched against
`^(\d{4}-\d{2}-\d{2})\b` and then `^(\d{8})\b`, normalizing to `YYYY-MM-DD`. -/
def _normalize_trade_date (s : String) : Option String :=
  if s = "" then none
  else
    let cs := pyStrip s.data
    if hyphenShape (cs.take 10) &&
       (cs.length ≤ 10 || !wordChar (cs.getD 10 ' ')) then
      some ⟨cs.take 10⟩
    else if 8 ≤ cs.length && (cs.take 8).all Char.isDigit &&
            (cs.length ≤ 8 || !wordChar (cs.getD 8 ' ')) then
      some (⟨cs.take 4⟩ ++ "-" ++ ⟨(cs.drop 4).take 2⟩ ++ "-" ++ ⟨(cs.drop 6).take 2⟩)
    else none

/-- Python dict insertion: updates the value in place if the key exists
(keeping first-insertion order), else appends. -/
def dictInsert (l : List (String × ℚ)) (k : String) (v : ℚ) : List (String × ℚ) :=
  if l.any (fun p => p.1 == k) then l.map (fun p => if p.1 = k then (k, v) else p)
  else l ++ [(k, v)]

/-- Python `dict.get` (missing key gives `None`). -/
def dictGet (l : List (String × ℚ)) (k : String) : Option ℚ :=
  (l.find? (fun p => p.1 == k)).map Prod.snd

/-- Body of `load_all_dates_closes` after the query (src/underlying_store.py:134-143):
builds `close_by_date` (last write wins) over normalized dates, then sorts
the keys ascending. -/
def loadFromRows (rows : List DbRow) : List String × List (String × ℚ) :=
  let close_by_date := rows.foldl (fun acc r =>
      match _normalize_trade_date r.trade_date with
      | none => acc
      | some nd => dictInsert acc nd r.close) []
  let dates_sorted := List.insertionSort (· ≤ ·) (close_by_date.map Prod.fst)
  (dates_sorted, close_by_date)

/-- `load_all_dates_closes` (src/underlying_store.py:115-145) over the
materialized table: `SELECT trade_date, close WHERE symbol = symbol.upper()
ORDER BY trade_date ASC`, then normalization and key sorting. -/
def load_all_dates_closes (db : List DbRow) (symbol : String) :
    List String × List (String × ℚ) :=
  loadFromRows (List.insertionSort (fun a b => a.trade_date ≤ b.trade_date)
    (db.filter (fun r => r.symbol == pyUpper symbol)))

/-- `compute_earnings_moves_from_db` (src/earnings_moves.py:96-170): load the
symbol's dates/closes from the table, then run the per-event loop. -/
def compute_earnings_moves_from_db (db : List DbRow) (symbol : String)
    (earnings_dates_with_timing : List (String × Option String)) :
    Option (List EarningsEventMove) :=
  let loaded := load_all_dates_closes db symbol
  compute_earnings_moves loaded.1 (dictGet loaded.2) earnings_dates_with_timing

/-- `_percentile` (src/earnings_moves.py:44-61): linear-interpolation
percentile over an ascending-sorted list, `p` clamped to the ends. -/
def _percentile (sorted_vals : List ℚ) (p : ℚ) : Option ℚ :=
  if sorted_vals = [] then none
  else if p ≤ 0 then some (sorted_vals.getD 0 0)
  else if 1 ≤ p then some (sorted_vals.getD (sorted_vals.length - 1) 0)
  else
    let idx : ℚ := ((sorted_vals.length - 1 : ℕ) : ℚ) * p
    let lo := (⌊idx⌋).toNat
    let hi := (⌈idx⌉).toNat
    if lo = hi then some (sorted_vals.getD lo 0)
    else
      let w := idx - (lo : ℚ)
      some (sorted_vals.getD lo 0 * (1 - w) + sorted_vals.getD hi 0 * w)

/-- `_median` (src/earnings_moves.py:64-65). -/
def _median (sorted_vals : List ℚ) : Option ℚ := _percentile sorted_vals (1/2)

/-- `percentile` (src/analytics.py:38-55); textually identical algorithm to
`_percentile`. -/
def percentile (sorted_vals : List ℚ) (p : ℚ) : Option ℚ :=
  if sorted_vals = [] then none
  else if p ≤ 0 then some (sorted_vals.getD 0 0)
  else if 1 ≤ p then some (sorted_vals.getD (sorted_vals.length - 1) 0)
  else
    let idx : ℚ := ((sorted_vals.length - 1 : ℕ) : ℚ) * p
    let lo := (⌊idx⌋).toNat
    let hi := (⌈idx⌉).toNat
    if lo = hi then some (sorted_vals.getD lo 0)
    else
      let w := idx - (lo : ℚ)
      some (sorted_vals.getD lo 0 * (1 - w) + sorted_vals.getD hi 0 * w)

/-- `EarningsMoveStats` (src/earnings_moves.py:28-37). -/
structure EarningsMoveStats where
  n_events_total : ℕ
  n_events_used : ℕ
  mean_move : Option ℚ
  median_move : Option ℚ
  p75_move : Option ℚ
  max_move : Option ℚ
  implied_percentile_rank : Option ℚ
  earnings_hist_ok : Bool
deriving DecidableEq, Repr

/-- Python default of the `min_valid_events` parameter of
`summarize_earnings_moves` (src/earnings_moves.py:176). -/
def min_valid_events_default : ℕ := 8

/-- `summarize_earnings_moves` (src/earnings_moves.py:173-208). -/
def summarize_earnings_moves (moves : List EarningsEventMove)
    (current_implied_move_pct : Option ℚ) (min_valid_events : ℕ) :
    EarningsMoveStats :=
  let used_vals := List.insertionSort (· ≤ ·)
    (moves.filterMap (fun m => m.move_used_pct))
  let n_total := moves.length
  let n_used := used_vals.length
  let mean_move := if n_used ≠ 0 then some (used_vals.sum / (n_used : ℚ)) else none
  let median_move := _median used_vals
  let p75_move := _percentile used_vals (3/4)
  let max_move := used_vals.getLast?
  let implied_rank : Option ℚ :=
    match current_implied_move_pct with
    | some c =>
      if used_vals ≠ [] then
        some (100 * ((used_vals.countP (fun x => decide (x ≤ c)) : ℚ) / (used_vals.length : ℚ)))
      else none
    | none => none
  { n_events_total := n_total
    n_events_used := n_used
    mean_move := mean_move
    median_move := median_move
    p75_move := p75_move
    max_move := max_move
    implied_percentile_rank := implied_rank
    earnings_hist_ok := decide (min_valid_events ≤ n_used) }

/-- The trailing `window + 1` closes over which `realized_vol_annualized`
iterates (Python negative indices `closes[-window-1] .. closes[-1]`). -/
def trailingCloses (closes : List ℚ) (window : ℕ) : List ℚ :=
  closes.drop (closes.length - (window + 1))

/-- The consecutive log-returns `ln(close[t]/close[t-1])` of a close list
(src/analytics.py:17-22 builds exactly these over the trailing window). -/
noncomputable def logReturns : List ℚ → List ℝ
  | c0 :: c1 :: rest => Real.log ((c1 : ℝ) / (c0 : ℝ)) :: logReturns (c1 :: rest)
  | _ => []

/-- `m = sum(rets) / len(rets)` (src/analytics.py:25). -/
noncomputable def listMeanR (xs : List ℝ) : ℝ := xs.sum / (xs.length : ℝ)

/-- `var = sum((x - m) ** 2 for x in rets) / (len(rets) - 1)`
(src/analytics.py:26), Bessel-corrected sample variance. -/
noncomputable def sampleVar (xs : List ℝ) : ℝ :=
  ((xs.map (fun x => (x - listMeanR xs) ^ 2)).sum) / ((xs.length - 1 : ℕ) : ℝ)

/-- `realized_vol_annualized` (src/analytics.py:13-27): `none` when the series
is shorter than `window + 1`, when any close in the trailing window is ≤ 0
(the loop returns `None` at the first such pair), or when fewer than two
returns are available; else the annualized sample standard deviation. -/
noncomputable def realized_vol_annualized (closes : List ℚ) (window : ℕ) : Option ℝ :=
  if closes.length < window + 1 then none
  else
    if (trailingCloses closes window).any (fun c => decide (c ≤ 0)) then none
    else
      let rets := logReturns (trailingCloses closes window)
      if rets.length < 2 then none
      else some (Real.sqrt (sampleVar rets) * Real.sqrt 252)

/-- Default record used with `List.getD` in theorem statements. -/
def dummyMove : EarningsEventMove :=
  { earnings_date := "", timing := "", d_m1 := none, d0 := none, d_p1 := none,
    close_dm1 := none, close_d0 := none, close_dp1 := none,
    move_bmo_like_pct := none, move_amc_like_pct := none,
    move_used_pct := none, used_window := none, note := "" }

/-! ## Helper lemmas -/

theorem getD_mem_of_lt {α : Type} (l : List α) (d : α) {n : ℕ} (h : n < l.length) :
    l.getD n d ∈ l := by
  rw [List.getD_eq_getElem?_getD, List.getElem?_eq_getElem h]
  exact List.getElem_mem h

theorem sorted_getD_zero_le {L : List ℚ} (hs : L.Sorted (· ≤ ·)) {x : ℚ} (hx : x ∈ L) :
    L.getD 0 0 ≤ x := by
  cases L with
  | nil => cases hx
  | cons a l =>
    rcases List.mem_cons.mp hx with h | h
    · simp [h]
    · simpa using (List.sorted_cons.mp hs).1 x h

theorem sorted_le_getD_last {L : List ℚ} (hs : L.Sorted (· ≤ ·)) {x : ℚ} (hx : x ∈ L) :
    x ≤ L.getD (L.length - 1) 0 := by
  induction L with
  | nil => cases hx
  | cons a l ih =>
    cases l with
    | nil => simp at hx; simp [hx]
    | cons b l' =>
      have hlen : (a :: b :: l').length - 1 = (b :: l').length := by simp
      rw [hlen]
      have hgd : (a :: b :: l').getD (b :: l').length 0 =
          (b :: l').getD ((b :: l').length - 1) 0 := by
        rw [show (b :: l').length = (l'.length + 1) from by simp, List.getD_cons_succ]
        simp
      rw [hgd]
      rcases List.mem_cons.mp hx with h | h
      · subst h
        have hmem : (b :: l').getD ((b :: l').length - 1) 0 ∈ (b :: l') :=
          getD_mem_of_lt _ _ (by simp)
        exact (List.sorted_cons.mp hs).1 _ hmem
      · exact ih (List.sorted_cons.mp hs).2 h

theorem pdate_lt_def (a b : PDate) :
    a < b ↔ (a.y < b.y ∨ (a.y = b.y ∧ (a.m < b.m ∨ (a.m = b.m ∧ a.d < b.d)))) := Iff.rfl

theorem pdate_lt_trans (a b c : PDate) : a < b → b < c → a < c := by
  rw [pdate_lt_def, pdate_lt_def, pdate_lt_def]
  omega

instance : IsTrans PDate (· < ·) := ⟨pdate_lt_trans⟩

theorem pdate_le_lt_absurd {a b : PDate} (h1 : a ≤ b) (h2 : b < a) : False := by
  rcases h1 with h1 | rfl
  · rw [pdate_lt_def] at h1 h2; omega
  · rw [pdate_lt_def] at h2; omega

theorem pdate_le_refl (a : PDate) : a ≤ a := Or.inr rfl

theorem floor_three_halves : ⌊(3/2 : ℚ)⌋ = 1 := by
  rw [Int.floor_eq_iff]; norm_num

theorem ceil_three_halves : ⌈(3/2 : ℚ)⌉ = 2 := by
  rw [Int.ceil_eq_iff]; norm_num

theorem percentile_example : percentile [(1:ℚ), 2, 3, 4] (1/2) = some (5/2) := by
  have hidx : ((([(1:ℚ), 2, 3, 4].length - 1 : ℕ) : ℚ)) * (1/2) = 3/2 := by norm_num
  simp only [percentile, hidx]
  norm_num [floor_three_halves, ceil_three_halves]
  refine ⟨by simp, ?_⟩
  simp only [show Int.toNat 2 = 2 from rfl]
  norm_num

theorem percentile_singleton (a p : ℚ) : percentile [a] p = some a := by
  by_cases h0 : p ≤ 0
  · simp [percentile, h0]
  · by_cases h1 : (1:ℚ) ≤ p
    · simp [percentile, h0, h1]
    · have hidx : ((([a].length - 1 : ℕ) : ℚ)) * p = 0 := by norm_num
      simp only [percentile, hidx]
      norm_num

/-- C5 -/
theorem claim_C5_percentile (L : List ℚ) (p : ℚ) (hs : L.Sorted (· ≤ ·)) :
    percentile ([] : List ℚ) p = none ∧
    (L ≠ [] → p ≤ 0 → ∃ m, percentile L p = some m ∧ m ∈ L ∧ ∀ x ∈ L, m ≤ x) ∧
    (L ≠ [] → 1 ≤ p → ∃ m, percentile L p = some m ∧ m ∈ L ∧ ∀ x ∈ L, x ≤ m) ∧
    (L ≠ [] → 0 < p → p < 1 →
      percentile L p =
        some (L.getD (⌊((L.length - 1 : ℕ) : ℚ) * p⌋).toNat 0 *
                (1 - (((L.length - 1 : ℕ) : ℚ) * p - ((⌊((L.length - 1 : ℕ) : ℚ) * p⌋).toNat : ℚ))) +
              L.getD (⌈((L.length - 1 : ℕ) : ℚ) * p⌉).toNat 0 *
                (((L.length - 1 : ℕ) : ℚ) * p - ((⌊((L.length - 1 : ℕ) : ℚ) * p⌋).toNat : ℚ)))) ∧
    (∀ a : ℚ, percentile [a] p = some a) ∧
    percentile [(1:ℚ), 2, 3, 4] (1/2) = some (5/2) ∧
    (∀ q : ℚ, _percentile L q = percentile L q) := by
  refine ⟨by simp [percentile], ?_, ?_, ?_,
    fun a => percentile_singleton a p, percentile_example, fun q => rfl⟩
  · intro hne hp
    refine ⟨L.getD 0 0, ?_, getD_mem_of_lt _ _ (List.length_pos.mpr hne),
      fun x hx => sorted_getD_zero_le hs hx⟩
    simp only [percentile, if_neg hne, if_pos hp]
  · intro hne hp1
    have hp0 : ¬ p ≤ 0 := by linarith
    refine ⟨L.getD (L.length - 1) 0, ?_,
      getD_mem_of_lt _ _ (by have := List.length_pos.mpr hne; omega),
      fun x hx => sorted_le_getD_last hs hx⟩
    simp only [percentile, if_neg hne, if_neg hp0, if_pos hp1]
  · intro hne hp0 hp1
    have hnp0 : ¬ p ≤ 0 := not_le.mpr hp0
    have hnp1 : ¬ (1:ℚ) ≤ p := not_le.mpr hp1
    simp only [percentile, if_neg hne, if_neg hnp0, if_neg hnp1]
    set idx : ℚ := ((L.length - 1 : ℕ) : ℚ) * p with hidx
    have hidx0 : 0 ≤ idx := by
      rw [hidx]
      exact mul_nonneg (Nat.cast_nonneg _) (le_of_lt hp0)
    have hf0 : 0 ≤ ⌊idx⌋ := Int.floor_nonneg.mpr hidx0
    by_cases heq : (⌊idx⌋).toNat = (⌈idx⌉).toNat
    · rw [if_pos heq]
      have hfc : ⌊idx⌋ ≤ ⌈idx⌉ := Int.floor_le_ceil idx
      have hic : ⌊idx⌋ = ⌈idx⌉ := by omega
      have hcast : ((⌊idx⌋.toNat : ℚ)) = idx := by
        have h1 : ((⌊idx⌋ : ℚ)) ≤ idx := Int.floor_le idx
        have h2 : idx ≤ ((⌈idx⌉ : ℚ)) := Int.le_ceil idx
        rw [← hic] at h2
        have h3 : ((⌊idx⌋ : ℚ)) = idx := le_antisymm h1 h2
        rw [← h3]
        exact_mod_cast congrArg (fun z : ℤ => (z : ℚ)) (Int.toNat_of_nonneg hf0)
      rw [← heq, hcast, sub_self]
      norm_num
    · rw [if_neg heq]

/-- C5 witness -/
theorem claim_C5_witness :
    ∃ m, percentile [(1:ℚ), 2, 3, 4] 0 = some m ∧ m ∈ [(1:ℚ), 2, 3, 4] ∧
      ∀ x ∈ [(1:ℚ), 2, 3, 4], m ≤ x :=
  (claim_C5_percentile [(1:ℚ), 2, 3, 4] 0 (by norm_num [List.sorted_cons])).2.1
    (by simp) (le_refl 0)

theorem logReturns_length (l : List ℚ) : (logReturns l).length = l.length - 1 := by
  induction l with
  | nil => simp [logReturns]
  | cons c0 rest ih =>
    cases rest with
    | nil => simp [logReturns]
    | cons c1 rest' =>
      simp only [logReturns, List.length_cons] at *
      omega

theorem trailing_length {closes : List ℚ} {window : ℕ} (h : window + 1 ≤ closes.length) :
    (trailingCloses closes window).length = window + 1 := by
  simp only [trailingCloses, List.length_drop]
  omega

theorem realized_vol_none_iff (closes : List ℚ) (window : ℕ) :
    realized_vol_annualized closes window = none ↔
      (closes.length < window + 1 ∨ (∃ c ∈ trailingCloses closes window, c ≤ 0) ∨ window < 2) := by
  constructor
  · intro h
    simp only [realized_vol_annualized] at h
    split_ifs at h with h1 h2 h3
    · exact Or.inl h1
    · right; left
      rcases List.any_eq_true.mp h2 with ⟨c, hc, hcle⟩
      exact ⟨c, hc, of_decide_eq_true hcle⟩
    · right; right
      have hlen := logReturns_length (trailingCloses closes window)
      have htl : (trailingCloses closes window).length = window + 1 := trailing_length (by omega)
      omega
  · intro h
    simp only [realized_vol_annualized]
    split_ifs with h1 h2 h3
    · rfl
    · rfl
    · rfl
    · exfalso
      rcases h with h | h | h
      · exact h1 h
      · rcases h with ⟨c, hc, hcle⟩
        exact h2 (List.any_eq_true.mpr ⟨c, hc, decide_eq_true hcle⟩)
      · have hlen := logReturns_length (trailingCloses closes window)
        have htl : (trailingCloses closes window).length = window + 1 := trailing_length (by omega)
        omega

theorem realized_vol_pos_case {closes : List ℚ} {window : ℕ}
    (h1 : window + 1 ≤ closes.length) (hpos : ∀ c ∈ trailingCloses closes window, 0 < c)
    (hw : 2 ≤ window) :
    realized_vol_annualized closes window =
      some (Real.sqrt (sampleVar (logReturns (trailingCloses closes window))) * Real.sqrt 252) := by
  have hn1 : ¬ closes.length < window + 1 := by omega
  have h2 : (trailingCloses closes window).any (fun c => decide (c ≤ 0)) = false := by
    rw [List.any_eq_false]
    intro c hc
    simp only [decide_eq_true_eq]
    exact not_le.mpr (hpos c hc)
  have hretlen : (logReturns (trailingCloses closes window)).length = window := by
    have ha := logReturns_length (trailingCloses closes window)
    have hb := trailing_length h1
    omega
  simp only [realized_vol_annualized, h2, hretlen]
  rw [if_neg hn1, if_neg (by simp), if_neg (by omega)]

/-- C6: `realized_vol_annualized` returns no value exactly when the series is
shorter than `window+1`, some trailing close is ≤ 0, or `window < 2`; otherwise
it returns the Bessel-corrected sample standard deviation of the last `window`
log-returns annualized by √252, a non-negative real. -/
theorem claim_C6_realized_vol (closes : List ℚ) (window : ℕ) :
    (realized_vol_annualized closes window = none ↔
      (closes.length < window + 1 ∨ (∃ c ∈ trailingCloses closes window, c ≤ 0) ∨ window < 2)) ∧
    (window + 1 ≤ closes.length → (∀ c ∈ trailingCloses closes window, 0 < c) → 2 ≤ window →
      realized_vol_annualized closes window =
        some (Real.sqrt (sampleVar (logReturns (trailingCloses closes window))) * Real.sqrt 252) ∧
      (logReturns (trailingCloses closes window)).length = window) ∧
    (∀ v : ℝ, realized_vol_annualized closes window = some v → 0 ≤ v) := by
  refine ⟨realized_vol_none_iff closes window, ?_, ?_⟩
  · intro hlen hpos hw
    refine ⟨realized_vol_pos_case hlen hpos hw, ?_⟩
    have ha := logReturns_length (trailingCloses closes window)
    have hb := trailing_length hlen
    omega
  · intro v hv
    simp only [realized_vol_annualized] at hv
    split_ifs at hv
    rw [← Option.some.inj hv]
    exact mul_nonneg (Real.sqrt_nonneg _) (Real.sqrt_nonneg _)

/-- C6 witness. -/
theorem claim_C6_witness :
    realized_vol_annualized [(1:ℚ)] 3 = none ∧
    (logReturns (trailingCloses [(1:ℚ), 2, 1, 2, 1] 4)).length = 4 := by
  constructor
  · exact (claim_C6_realized_vol [(1:ℚ)] 3).1.mpr (Or.inl (by norm_num))
  · refine ((claim_C6_realized_vol [(1:ℚ), 2, 1, 2, 1] 4).2.1 (by norm_num) ?_ (by norm_num)).2
    intro c hc
    simp only [trailingCloses, List.length_cons, List.drop] at hc
    fin_cases hc <;> norm_num

theorem logReturns_scale {k : ℚ} (hk : 0 < k) :
    ∀ l : List ℚ, (∀ c ∈ l, 0 < c) →
      logReturns (l.map (fun c => k * c)) = logReturns l := by
  intro l
  induction l with
  | nil => intro _; rfl
  | cons c0 rest ih =>
    cases rest with
    | nil => intro _; rfl
    | cons c1 rest' =>
      intro hpos
      simp only [List.map_cons, logReturns]
      congr 1
      · have hc0 : (0:ℚ) < c0 := hpos c0 (by simp)
        have hdiv : ((k * c1 : ℚ) : ℝ) / ((k * c0 : ℚ) : ℝ) = ((c1 : ℚ) : ℝ) / ((c0 : ℚ) : ℝ) := by
          push_cast
          rw [mul_div_mul_left]
          exact_mod_cast ne_of_gt hk
        rw [hdiv]
      · have := ih (fun c hc => hpos c (List.mem_cons_of_mem _ hc))
        simpa [List.map_cons] using this

theorem trailing_map_scale (closes : List ℚ) (window : ℕ) (k : ℚ) :
    trailingCloses (closes.map (fun c => k * c)) window =
      (trailingCloses closes window).map (fun c => k * c) := by
  simp only [trailingCloses, List.length_map]
  exact Eq.symm (List.map_drop _ _ _)

/-- C7: realized volatility is invariant under scaling every close by `k > 0`. -/
theorem claim_C7_scale_invariance (closes : List ℚ) (window : ℕ) (k : ℚ) (hk : 0 < k) :
    realized_vol_annualized (closes.map (fun c => k * c)) window =
      realized_vol_annualized closes window := by
  have hlen : (closes.map (fun c => k * c)).length = closes.length := List.length_map _ _
  have hex : (∃ c ∈ trailingCloses (closes.map (fun c => k * c)) window, c ≤ 0) ↔
      (∃ c ∈ trailingCloses closes window, c ≤ 0) := by
    rw [trailing_map_scale]
    constructor
    · rintro ⟨c, hc, hle⟩
      rcases List.mem_map.mp hc with ⟨c', hc', rfl⟩
      refine ⟨c', hc', ?_⟩
      nlinarith
    · rintro ⟨c, hc, hle⟩
      exact ⟨k * c, List.mem_map_of_mem _ hc, by nlinarith⟩
  rcases lt_or_ge closes.length (window + 1) with h1 | h1
  · rw [(realized_vol_none_iff _ _).mpr (Or.inl (by rwa [hlen])),
       (realized_vol_none_iff _ _).mpr (Or.inl h1)]
  · by_cases h2 : ∃ c ∈ trailingCloses closes window, c ≤ 0
    · rw [(realized_vol_none_iff _ _).mpr (Or.inr (Or.inl (hex.mpr h2))),
         (realized_vol_none_iff _ _).mpr (Or.inr (Or.inl h2))]
    · by_cases h3 : window < 2
      · rw [(realized_vol_none_iff _ _).mpr (Or.inr (Or.inr h3)),
           (realized_vol_none_iff _ _).mpr (Or.inr (Or.inr h3))]
      · have hpos : ∀ c ∈ trailingCloses closes window, 0 < c :=
          fun c hc => not_le.mp (fun hle => h2 ⟨c, hc, hle⟩)
        have hposm : ∀ c ∈ trailingCloses (closes.map (fun c => k * c)) window, 0 < c := by
          rw [trailing_map_scale]
          rintro c hc
          rcases List.mem_map.mp hc with ⟨c', hc', rfl⟩
          exact mul_pos hk (hpos c' hc')
        rw [realized_vol_pos_case (by rwa [hlen]) hposm (by omega),
           realized_vol_pos_case h1 hpos (by omega)]
        rw [trailing_map_scale, logReturns_scale hk _ hpos]

/-- C7 witness. -/
theorem claim_C7_witness :
    realized_vol_annualized ([(1:ℚ), 2, 3, 4].map (fun c => 2 * c)) 3 =
      realized_vol_annualized [(1:ℚ), 2, 3, 4] 3 :=
  claim_C7_scale_invariance [(1:ℚ), 2, 3, 4] 3 2 (by norm_num)

/-- C4: the implied percentile rank is `100 × #{used ≤ implied} / n_used`
(inclusive on equality), null exactly when no implied move is supplied or no
used moves exist; `earnings_hist_ok` is exactly `n_used ≥ min_valid_events`,
whose Python default is 8. -/
theorem claim_C4_summarize (moves : List EarningsEventMove) (c : Option ℚ) (minv : ℕ) :
    (∀ x : ℚ, c = some x → moves.filterMap (fun m => m.move_used_pct) ≠ [] →
      (summarize_earnings_moves moves c minv).implied_percentile_rank =
        some (100 * (((moves.filterMap (fun m => m.move_used_pct)).countP
            (fun v => decide (v ≤ x)) : ℚ) /
          ((moves.filterMap (fun m => m.move_used_pct)).length : ℚ)))) ∧
    ((summarize_earnings_moves moves c minv).implied_percentile_rank = none ↔
      (c = none ∨ moves.filterMap (fun m => m.move_used_pct) = [])) ∧
    ((summarize_earnings_moves moves c minv).earnings_hist_ok = true ↔
      minv ≤ (moves.filterMap (fun m => m.move_used_pct)).length) ∧
    min_valid_events_default = 8 := by
  have hperm : (List.insertionSort (· ≤ ·) (moves.filterMap (fun m => m.move_used_pct))).Perm
      (moves.filterMap (fun m => m.move_used_pct)) :=
    List.perm_insertionSort _ _
  have hlen : (List.insertionSort (· ≤ ·) (moves.filterMap (fun m => m.move_used_pct))).length =
      (moves.filterMap (fun m => m.move_used_pct)).length := hperm.length_eq
  have hnil : ∀ h0 : List.insertionSort (· ≤ ·) (moves.filterMap (fun m => m.move_used_pct)) = [],
      moves.filterMap (fun m => m.move_used_pct) = [] := by
    intro h0
    have := congrArg List.length h0
    rw [hlen] at this
    simpa using this
  refine ⟨?_, ?_, ?_, rfl⟩
  · intro x hcx hne
    subst hcx
    simp only [summarize_earnings_moves]
    rw [if_pos (fun h0 => hne (hnil h0))]
    congr 1
    rw [List.Perm.countP_eq _ hperm, hlen]
  · rcases c with _ | x
    · simp [summarize_earnings_moves]
    · simp only [summarize_earnings_moves]
      by_cases h : moves.filterMap (fun m => m.move_used_pct) = []
      · simp [h]
      · have hsne : List.insertionSort (· ≤ ·) (moves.filterMap (fun m => m.move_used_pct)) ≠ [] :=
          fun h0 => h (hnil h0)
        simp [hsne, h]
  · simp only [summarize_earnings_moves]
    simp [hlen]

/-- Record with only the used move set, for the C4 witness. -/
def usedMove (q : ℚ) : EarningsEventMove := { dummyMove with move_used_pct := some q }

/-- The spec's summarization example: used moves 0.05, 0.10, 0.15, 0.20. -/
def moves4 : List EarningsEventMove :=
  [usedMove (1/20), usedMove (1/10), usedMove (3/20), usedMove (1/5)]

/-- C4 witness: implied move 0.12 ranks at 50.0, and 4 used events fail the
default threshold of 8. -/
theorem claim_C4_witness :
    (summarize_earnings_moves moves4 (some (3/25)) 8).implied_percentile_rank = some 50 ∧
    ¬ ((summarize_earnings_moves moves4 (some (3/25)) 8).earnings_hist_ok = true) := by
  have h := claim_C4_summarize moves4 (some (3/25)) 8
  constructor
  · rw [h.1 (3/25) rfl (by simp [moves4, usedMove, dummyMove])]
    norm_num [moves4, usedMove, dummyMove, List.filterMap_cons, List.countP_cons,
      List.countP_nil]
  · intro hok
    have h3 := (h.2.2.1).mp hok
    simp [moves4, usedMove, dummyMove] at h3

theorem mkFromTriple_timing (m : String → Option ℚ) (e : String) (tm : Option String)
    (tri : Option String × Option String × Option String) :
    (mkFromTriple m e tm tri).timing = timingNorm tm := rfl

theorem mkFromTriple_pair (m : String → Option ℚ) (e : String) (tm : Option String)
    (tri : Option String × Option String × Option String) :
    ((mkFromTriple m e tm tri).move_used_pct, (mkFromTriple m e tm tri).used_window) =
      selectUsed (timingNorm tm) (mkFromTriple m e tm tri).move_bmo_like_pct
        (mkFromTriple m e tm tri).move_amc_like_pct := rfl

theorem selectUsed_spec (t : String) (B A : Option ℚ) :
    (t = "BMO" → selectUsed t B A = (B, some "BMO_like")) ∧
    (t = "AMC" → selectUsed t B A = (A, some "AMC_like")) ∧
    (t ≠ "BMO" → t ≠ "AMC" → selectUsed t B A = unknownSelect B A) := by
  refine ⟨?_, ?_, ?_⟩
  · intro h; simp [selectUsed, h]
  · intro h; simp [selectUsed, h]
  · intro h1 h2; simp [selectUsed, h1, h2]

/-- C2: the used move is picked by the timing tag: "BMO" forces the BMO-like
candidate (even when null), "AMC" forces the AMC-like one, and any other tag
takes the larger candidate (ties via `>=` go to BMO-like), the sole present
one, or null when neither exists. -/
theorem claim_C2_selection (ds : List String) (m : String → Option ℚ) (edate : String)
    (timing : Option String) (r : EarningsEventMove)
    (h : mkEventMove ds m (edate, timing) = some r) :
    (r.timing = "BMO" → r.move_used_pct = r.move_bmo_like_pct ∧ r.used_window = some "BMO_like") ∧
    (r.timing = "AMC" → r.move_used_pct = r.move_amc_like_pct ∧ r.used_window = some "AMC_like") ∧
    (r.timing ≠ "BMO" → r.timing ≠ "AMC" →
      (∀ b a, r.move_bmo_like_pct = some b → r.move_amc_like_pct = some a →
        (a ≤ b → r.move_used_pct = some b ∧ r.used_window = some "BMO_like") ∧
        (b < a → r.move_used_pct = some a ∧ r.used_window = some "AMC_like")) ∧
      (∀ b, r.move_bmo_like_pct = some b → r.move_amc_like_pct = none →
        r.move_used_pct = some b ∧ r.used_window = some "BMO_like") ∧
      (∀ a, r.move_bmo_like_pct = none → r.move_amc_like_pct = some a →
        r.move_used_pct = some a ∧ r.used_window = some "AMC_like") ∧
      (r.move_bmo_like_pct = none → r.move_amc_like_pct = none →
        r.move_used_pct = none ∧ r.used_window = none)) := by
  obtain ⟨tri, htri, hr⟩ := Option.map_eq_some'.mp h
  subst hr
  have htm := mkFromTriple_timing m edate timing tri
  have hpair := mkFromTriple_pair m edate timing tri
  refine ⟨?_, ?_, ?_⟩
  · intro ht
    rw [htm] at ht
    rw [(selectUsed_spec _ _ _).1 ht] at hpair
    exact ⟨congrArg Prod.fst hpair, congrArg Prod.snd hpair⟩
  · intro ht
    rw [htm] at ht
    rw [(selectUsed_spec _ _ _).2.1 ht] at hpair
    exact ⟨congrArg Prod.fst hpair, congrArg Prod.snd hpair⟩
  · intro ht1 ht2
    rw [htm] at ht1 ht2
    rw [(selectUsed_spec _ _ _).2.2 ht1 ht2] at hpair
    refine ⟨?_, ?_, ?_, ?_⟩
    · intro b a hb ha
      rw [hb, ha] at hpair
      constructor
      · intro hab
        rw [show unknownSelect (some b) (some a) = (some b, some "BMO_like") from by
          simp [unknownSelect, if_pos hab]] at hpair
        exact ⟨congrArg Prod.fst hpair, congrArg Prod.snd hpair⟩
      · intro hba
        rw [show unknownSelect (some b) (some a) = (some a, some "AMC_like") from by
          simp [unknownSelect, if_neg (not_le.mpr hba)]] at hpair
        exact ⟨congrArg Prod.fst hpair, congrArg Prod.snd hpair⟩
    · intro b hb ha
      rw [hb, ha] at hpair
      exact ⟨congrArg Prod.fst hpair, congrArg Prod.snd hpair⟩
    · intro a hb ha
      rw [hb, ha] at hpair
      exact ⟨congrArg Prod.fst hpair, congrArg Prod.snd hpair⟩
    · intro hb ha
      rw [hb, ha] at hpair
      exact ⟨congrArg Prod.fst hpair, congrArg Prod.snd hpair⟩

/-- Concrete trading-date index for witnesses. -/
def wDates : List String := ["2024-01-03", "2024-01-04", "2024-01-05"]

/-- Concrete close mapping for witnesses. -/
def wCloses : String → Option ℚ := fun d =>
  if d = "2024-01-03" then some 100
  else if d = "2024-01-04" then some 110
  else if d = "2024-01-05" then some 132 else none

/-- The record emitted for event ("2024-01-04", "BMO") over `wDates`/`wCloses`. -/
def wRecBmo : EarningsEventMove :=
  { earnings_date := "2024-01-04", timing := "BMO",
    d_m1 := some "2024-01-03", d0 := some "2024-01-04", d_p1 := some "2024-01-05",
    close_dm1 := some 100, close_d0 := some 110, close_dp1 := some 132,
    move_bmo_like_pct := some (1/10), move_amc_like_pct := some (1/5),
    move_used_pct := some (1/10), used_window := some "BMO_like", note := "" }

theorem wRecBmo_mk : mkEventMove wDates wCloses ("2024-01-04", some "BMO") = some wRecBmo := by
  have h1 : _nearest_trading_dates wDates "2024-01-04" =
      some (some "2024-01-03", some "2024-01-04", some "2024-01-05") := by decide
  rw [mkEventMove, h1]
  simp only [Option.map_some']
  rw [mkFromTriple]
  have hc1 : getClose wCloses (some "2024-01-03") = some 100 := by simp [getClose, wCloses]
  have hc2 : getClose wCloses (some "2024-01-04") = some 110 := by simp [getClose, wCloses]
  have hc3 : getClose wCloses (some "2024-01-05") = some 132 := by simp [getClose, wCloses]
  simp only [hc1, hc2, hc3]
  have hm1 : candidateMove (some 100) (some 110) = some (1/10) := by
    rw [candidateMove]; norm_num
  have hm2 : candidateMove (some 110) (some 132) = some (1/5) := by
    rw [candidateMove]; norm_num
  simp only [hm1, hm2]
  simp [wRecBmo, selectUsed, timingNorm, pyUpper]

/-- C2 witness: timing "BMO" forces the BMO-like window even though the
AMC-like move (0.2) is larger than the BMO-like one (0.1). -/
theorem claim_C2_witness :
    wRecBmo.move_used_pct = wRecBmo.move_bmo_like_pct ∧
    wRecBmo.used_window = some "BMO_like" :=
  (claim_C2_selection wDates wCloses "2024-01-04" (some "BMO") wRecBmo wRecBmo_mk).1 rfl

/-- C10: the timing stored on the record is `(timing or "UNKNOWN").upper()`;
any tag whose uppercasing is not exactly "BMO"/"AMC" goes through the
unknown-timing selection; absent and empty timings become "UNKNOWN",
lowercase "bmo"/"amc" are accepted, longer vendor strings are not. -/
theorem claim_C10_timing_fallthrough (ds : List String) (m : String → Option ℚ)
    (edate : String) (timing : Option String) (r : EarningsEventMove)
    (h : mkEventMove ds m (edate, timing) = some r) :
    r.timing = timingNorm timing ∧
    (timingNorm timing ≠ "BMO" → timingNorm timing ≠ "AMC" →
      (r.move_used_pct, r.used_window) =
        unknownSelect r.move_bmo_like_pct r.move_amc_like_pct) ∧
    timingNorm none = "UNKNOWN" ∧
    timingNorm (some "") = "UNKNOWN" ∧
    timingNorm (some "bmo") = "BMO" ∧
    timingNorm (some "amc") = "AMC" ∧
    timingNorm (some "BEFORE MARKET OPEN") = "BEFORE MARKET OPEN" ∧
    timingNorm (some "BEFORE MARKET OPEN") ≠ "BMO" := by
  obtain ⟨tri, htri, hr⟩ := Option.map_eq_some'.mp h
  subst hr
  have hpair := mkFromTriple_pair m edate timing tri
  refine ⟨mkFromTriple_timing m edate timing tri, ?_, by decide, by decide, by decide,
    by decide, by decide, by decide⟩
  intro ht1 ht2
  rw [(selectUsed_spec _ _ _).2.2 ht1 ht2] at hpair
  exact hpair

/-- The record emitted for event ("2024-01-04", "BEFORE MARKET OPEN"):
unknown-timing branch, the larger AMC-like move wins. -/
def wRecVendor : EarningsEventMove :=
  { earnings_date := "2024-01-04", timing := "BEFORE MARKET OPEN",
    d_m1 := some "2024-01-03", d0 := some "2024-01-04", d_p1 := some "2024-01-05",
    close_dm1 := some 100, close_d0 := some 110, close_dp1 := some 132,
    move_bmo_like_pct := some (1/10), move_amc_like_pct := some (1/5),
    move_used_pct := some (1/5), used_window := some "AMC_like", note := "" }

theorem wRecVendor_mk :
    mkEventMove wDates wCloses ("2024-01-04", some "BEFORE MARKET OPEN") = some wRecVendor := by
  have h1 : _nearest_trading_dates wDates "2024-01-04" =
      some (some "2024-01-03", some "2024-01-04", some "2024-01-05") := by decide
  rw [mkEventMove, h1]
  simp only [Option.map_some']
  rw [mkFromTriple]
  have hc1 : getClose wCloses (some "2024-01-03") = some 100 := by simp [getClose, wCloses]
  have hc2 : getClose wCloses (some "2024-01-04") = some 110 := by simp [getClose, wCloses]
  have hc3 : getClose wCloses (some "2024-01-05") = some 132 := by simp [getClose, wCloses]
  simp only [hc1, hc2, hc3]
  have hm1 : candidateMove (some 100) (some 110) = some (1/10) := by
    rw [candidateMove]; norm_num
  have hm2 : candidateMove (some 110) (some 132) = some (1/5) := by
    rw [candidateMove]; norm_num
  simp only [hm1, hm2]
  have hts : timingNorm (some "BEFORE MARKET OPEN") = "BEFORE MARKET OPEN" := by decide
  rw [hts]
  simp [wRecVendor]
  constructor <;>
    rw [(selectUsed_spec _ _ _).2.2 (by decide) (by decide)] <;>
    simp [unknownSelect] <;> norm_num

/-- C10 witness: vendor string "BEFORE MARKET OPEN" falls through to the
unknown-timing branch and is stored verbatim (uppercased). -/
theorem claim_C10_witness :
    wRecVendor.timing = timingNorm (some "BEFORE MARKET OPEN") ∧
    (wRecVendor.move_used_pct, wRecVendor.used_window) =
      unknownSelect wRecVendor.move_bmo_like_pct wRecVendor.move_amc_like_pct := by
  have h := claim_C10_timing_fallthrough wDates wCloses "2024-01-04"
    (some "BEFORE MARKET OPEN") wRecVendor wRecVendor_mk
  exact ⟨h.1, h.2.1 (by decide) (by decide)⟩

theorem mkFromTriple_close_dm1 (m : String → Option ℚ) (e : String) (tm : Option String)
    (tri : Option String × Option String × Option String) :
    (mkFromTriple m e tm tri).close_dm1 = getClose m tri.1 := rfl

theorem mkFromTriple_close_d0 (m : String → Option ℚ) (e : String) (tm : Option String)
    (tri : Option String × Option String × Option String) :
    (mkFromTriple m e tm tri).close_d0 = getClose m tri.2.1 := rfl

theorem mkFromTriple_close_dp1 (m : String → Option ℚ) (e : String) (tm : Option String)
    (tri : Option String × Option String × Option String) :
    (mkFromTriple m e tm tri).close_dp1 = getClose m tri.2.2 := rfl

theorem mkFromTriple_move_bmo (m : String → Option ℚ) (e : String) (tm : Option String)
    (tri : Option String × Option String × Option String) :
    (mkFromTriple m e tm tri).move_bmo_like_pct =
      candidateMove (getClose m tri.1) (getClose m tri.2.1) := rfl

theorem mkFromTriple_move_amc (m : String → Option ℚ) (e : String) (tm : Option String)
    (tri : Option String × Option String × Option String) :
    (mkFromTriple m e tm tri).move_amc_like_pct =
      candidateMove (getClose m tri.2.1) (getClose m tri.2.2) := rfl

theorem mkFromTriple_used (m : String → Option ℚ) (e : String) (tm : Option String)
    (tri : Option String × Option String × Option String) :
    (mkFromTriple m e tm tri).move_used_pct =
      (selectUsed (timingNorm tm) (candidateMove (getClose m tri.1) (getClose m tri.2.1))
        (candidateMove (getClose m tri.2.1) (getClose m tri.2.2))).1 := rfl

theorem mkFromTriple_note_raw (m : String → Option ℚ) (e : String) (tm : Option String)
    (tri : Option String × Option String × Option String) :
    (mkFromTriple m e tm tri).note =
      (if ((if candidateMove (getClose m tri.1) (getClose m tri.2.1) = none then
              ["missing_bmo_inputs"] else []) ++
            (if candidateMove (getClose m tri.2.1) (getClose m tri.2.2) = none then
              ["missing_amc_inputs"] else [])) = [] then ""
       else String.intercalate "|"
         ((if candidateMove (getClose m tri.1) (getClose m tri.2.1) = none then
             ["missing_bmo_inputs"] else []) ++
          (if candidateMove (getClose m tri.2.1) (getClose m tri.2.2) = none then
            ["missing_amc_inputs"] else []))) := rfl

theorem selectUsed_used_sound (t : String) (B A : Option ℚ) (v : ℚ)
    (h : (selectUsed t B A).1 = some v) :
    (selectUsed t B A).1 = B ∨ (selectUsed t B A).1 = A := by
  by_cases h1 : t = "BMO"
  · left; rw [(selectUsed_spec t B A).1 h1]
  · by_cases h2 : t = "AMC"
    · right; rw [(selectUsed_spec t B A).2.1 h2]
    · rw [(selectUsed_spec t B A).2.2 h1 h2] at h ⊢
      rcases B with _ | b <;> rcases A with _ | a
      · simp [unknownSelect] at h
      · right; rfl
      · left; rfl
      · by_cases hab : a ≤ b
        · left; simp [unknownSelect, if_pos hab]
        · right; simp [unknownSelect, if_neg hab]

theorem candidateMove_none_iff (ca cb : Option ℚ) :
    candidateMove ca cb = none ↔
      ¬ ∃ a b : ℚ, ca = some a ∧ cb = some b ∧ 0 < a ∧ 0 < b := by
  rcases ca with _ | a <;> rcases cb with _ | b
  · simp [candidateMove]
  · simp [candidateMove]
  · simp [candidateMove]
  · by_cases h : 0 < a ∧ 0 < b
    · simp [candidateMove, if_pos h, h]
    · simp [candidateMove, if_neg h, h]

theorem candidateMove_pos {a b : ℚ} (ha : 0 < a) (hb : 0 < b) :
    candidateMove (some a) (some b) = some |b / a - 1| := by
  simp [candidateMove, ha, hb]

theorem compute_earnings_moves_mem {ds : List String} {m : String → Option ℚ}
    {evs : List (String × Option String)} {l : List EarningsEventMove}
    {r : EarningsEventMove}
    (h : compute_earnings_moves ds m evs = some l) (hr : r ∈ l) :
    ∃ ev ∈ evs, mkEventMove ds m ev = some r := by
  induction evs generalizing l with
  | nil =>
    simp only [compute_earnings_moves] at h
    injection h with h
    subst h
    cases hr
  | cons ev rest ih =>
    simp only [compute_earnings_moves] at h
    split at h
    · cases h
    · rename_i r0 hev
      split at h
      · cases h
      · rename_i l' hrest
        injection h with h
        subst h
        rcases List.mem_cons.mp hr with h1 | h1
        · exact ⟨ev, List.mem_cons_self _ _, by rw [hev, h1]⟩
        · obtain ⟨ev', hev', hmk⟩ := ih hrest h1
          exact ⟨ev', List.mem_cons_of_mem _ hev', hmk⟩

/-- C3: every emitted record's selected move, when non-null, equals one of
the two candidate moves; a candidate is null iff its close pair is
unavailable or not strictly positive, and exactly then the pipe-joined note
carries the matching missing-input marker, the note being empty when both
candidates are present. -/
theorem claim_C3_record_invariants (ds : List String) (m : String → Option ℚ)
    (evs : List (String × Option String)) (l : List EarningsEventMove)
    (r : EarningsEventMove)
    (hl : compute_earnings_moves ds m evs = some l) (hr : r ∈ l) :
    (∀ v : ℚ, r.move_used_pct = some v →
      r.move_used_pct = r.move_bmo_like_pct ∨ r.move_used_pct = r.move_amc_like_pct) ∧
    (r.move_bmo_like_pct = none ↔
      ¬ ∃ a b : ℚ, r.close_dm1 = some a ∧ r.close_d0 = some b ∧ 0 < a ∧ 0 < b) ∧
    (∀ a b : ℚ, r.close_dm1 = some a → r.close_d0 = some b → 0 < a → 0 < b →
      r.move_bmo_like_pct = some |b / a - 1|) ∧
    (r.move_amc_like_pct = none ↔
      ¬ ∃ a b : ℚ, r.close_d0 = some a ∧ r.close_dp1 = some b ∧ 0 < a ∧ 0 < b) ∧
    (∀ a b : ℚ, r.close_d0 = some a → r.close_dp1 = some b → 0 < a → 0 < b →
      r.move_amc_like_pct = some |b / a - 1|) ∧
    (r.move_bmo_like_pct = none ↔ "missing_bmo_inputs" ∈ splitPipe r.note) ∧
    (r.move_amc_like_pct = none ↔ "missing_amc_inputs" ∈ splitPipe r.note) ∧
    (r.note = "" ↔ (r.move_bmo_like_pct ≠ none ∧ r.move_amc_like_pct ≠ none)) := by
  obtain ⟨ev, hev, hmk⟩ := compute_earnings_moves_mem hl hr
  obtain ⟨tri, htri, hrr⟩ := Option.map_eq_some'.mp hmk
  subst hrr
  refine ⟨?_, ?_, ?_, ?_, ?_, ?_, ?_, ?_⟩
  · intro v hv
    rw [mkFromTriple_used] at hv ⊢
    rw [mkFromTriple_move_bmo, mkFromTriple_move_amc]
    exact selectUsed_used_sound _ _ _ v hv
  · rw [mkFromTriple_move_bmo, mkFromTriple_close_dm1, mkFromTriple_close_d0]
    exact candidateMove_none_iff _ _
  · intro a b ha hb hpa hpb
    rw [mkFromTriple_move_bmo]
    rw [mkFromTriple_close_dm1] at ha
    rw [mkFromTriple_close_d0] at hb
    rw [ha, hb]
    exact candidateMove_pos hpa hpb
  · rw [mkFromTriple_move_amc, mkFromTriple_close_d0, mkFromTriple_close_dp1]
    exact candidateMove_none_iff _ _
  · intro a b ha hb hpa hpb
    rw [mkFromTriple_move_amc]
    rw [mkFromTriple_close_d0] at ha
    rw [mkFromTriple_close_dp1] at hb
    rw [ha, hb]
    exact candidateMove_pos hpa hpb
  · rw [mkFromTriple_move_bmo, mkFromTriple_note_raw]
    by_cases hB : candidateMove (getClose m tri.1) (getClose m tri.2.1) = none <;>
      by_cases hA : candidateMove (getClose m tri.2.1) (getClose m tri.2.2) = none <;>
      simp [hB, hA] <;> decide
  · rw [mkFromTriple_move_amc, mkFromTriple_note_raw]
    by_cases hB : candidateMove (getClose m tri.1) (getClose m tri.2.1) = none <;>
      by_cases hA : candidateMove (getClose m tri.2.1) (getClose m tri.2.2) = none <;>
      simp [hB, hA] <;> decide
  · rw [mkFromTriple_move_bmo, mkFromTriple_move_amc, mkFromTriple_note_raw]
    by_cases hB : candidateMove (getClose m tri.1) (getClose m tri.2.1) = none <;>
      by_cases hA : candidateMove (getClose m tri.2.1) (getClose m tri.2.2) = none <;>
      simp [hB, hA] <;> decide

/-- The record emitted for event ("2024-01-03", "AMC"): no D-1 exists, so the
BMO-like candidate is null and the note carries its marker. -/
def wRecAmc : EarningsEventMove :=
  { earnings_date := "2024-01-03", timing := "AMC",
    d_m1 := none, d0 := some "2024-01-03", d_p1 := some "2024-01-04",
    close_dm1 := none, close_d0 := some 100, close_dp1 := some 110,
    move_bmo_like_pct := none, move_amc_like_pct := some (1/10),
    move_used_pct := some (1/10), used_window := some "AMC_like",
    note := "missing_bmo_inputs" }

theorem wRecAmc_mk : mkEventMove wDates wCloses ("2024-01-03", some "AMC") = some wRecAmc := by
  have h1 : _nearest_trading_dates wDates "2024-01-03" =
      some (none, some "2024-01-03", some "2024-01-04") := by decide
  rw [mkEventMove, h1]
  simp only [Option.map_some']
  rw [mkFromTriple]
  have hc2 : getClose wCloses (some "2024-01-03") = some 100 := by simp [getClose, wCloses]
  have hc3 : getClose wCloses (some "2024-01-04") = some 110 := by simp [getClose, wCloses]
  simp only [hc2, hc3]
  have hm2 : candidateMove (some 100) (some 110) = some (1/10) := by
    rw [candidateMove]; norm_num
  simp only [hm2]
  simp [wRecAmc, selectUsed, timingNorm, pyUpper, getClose, candidateMove,
    String.intercalate]
  decide

theorem wRecAmc_compute :
    compute_earnings_moves wDates wCloses [("2024-01-03", some "AMC")] = some [wRecAmc] := by
  simp only [compute_earnings_moves, wRecAmc_mk]

/-- C3 witness: the BMO-like candidate is null and exactly its marker sits in
the pipe-joined note; the used move equals the AMC-like candidate. -/
theorem claim_C3_witness :
    (wRecAmc.move_bmo_like_pct = none ↔ "missing_bmo_inputs" ∈ splitPipe wRecAmc.note) ∧
    (wRecAmc.move_used_pct = wRecAmc.move_bmo_like_pct ∨
      wRecAmc.move_used_pct = wRecAmc.move_amc_like_pct) := by
  have h := claim_C3_record_invariants wDates wCloses [("2024-01-03", some "AMC")]
    [wRecAmc] wRecAmc wRecAmc_compute (by simp)
  exact ⟨h.2.2.2.2.2.1, h.1 (1/10) rfl⟩

/-- C8: the earnings-move entry point is a pure function of its explicit
inputs: over the materialized database state it is deterministic, and its
output depends only on the rows of the queried symbol (the `WHERE symbol = ?`
selection) — two database states agreeing on those rows give bit-identical
outputs, for every event list. -/
theorem claim_C8_referential_transparency (db1 db2 : List DbRow) (symbol : String)
    (evs : List (String × Option String))
    (h : db1.filter (fun r => r.symbol == pyUpper symbol) =
         db2.filter (fun r => r.symbol == pyUpper symbol)) :
    compute_earnings_moves_from_db db1 symbol evs =
      compute_earnings_moves_from_db db2 symbol evs ∧
    summarize_earnings_moves
        ((compute_earnings_moves_from_db db1 symbol evs).getD [])
        none min_valid_events_default =
      summarize_earnings_moves
        ((compute_earnings_moves_from_db db2 symbol evs).getD [])
        none min_valid_events_default := by
  have hload : load_all_dates_closes db1 symbol = load_all_dates_closes db2 symbol := by
    unfold load_all_dates_closes
    rw [h]
  constructor
  · unfold compute_earnings_moves_from_db
    rw [hload]
  · unfold compute_earnings_moves_from_db
    rw [hload]

/-- Rows for the C8 witness: db2 has an extra row of an unrelated symbol. -/
def wRow1 : DbRow := { trade_date := "2024-01-03", symbol := "AAPL", close := 100, volume := 5 }

/-- An unrelated-symbol row filtered out by the query. -/
def wRow2 : DbRow := { trade_date := "2024-01-03", symbol := "MSFT", close := 7, volume := 3 }

/-- C8 witness: adding a row of a different symbol does not change the output. -/
theorem claim_C8_witness :
    compute_earnings_moves_from_db [wRow1] "aapl" [("2024-01-03", some "AMC")] =
      compute_earnings_moves_from_db [wRow1, wRow2] "aapl" [("2024-01-03", some "AMC")] :=
  (claim_C8_referential_transparency [wRow1] [wRow1, wRow2] "aapl"
    [("2024-01-03", some "AMC")] (by decide)).1

theorem getD_eq_get {α : Type} (l : List α) (d : α) {n : ℕ} (h : n < l.length) :
    l.getD n d = l.get ⟨n, h⟩ := by
  rw [List.getD_eq_getElem?_getD, List.getElem?_eq_getElem h]
  simp [List.get_eq_getElem]

theorem scanBack_spec (ds : List String) (t : PDate) :
    ∀ i, i < ds.length → (∀ d ∈ ds, _parse_date d ≠ none) →
    (scanBack ds t i = some none ∧
      (∀ j, j ≤ i → ∀ pj, _parse_date (ds.getD j "") = some pj → ¬ pj ≤ t)) ∨
    (∃ k, k ≤ i ∧ scanBack ds t i = some (some k) ∧
      (∃ pk, _parse_date (ds.getD k "") = some pk ∧ pk ≤ t) ∧
      (∀ j, k < j → j ≤ i → ∀ pj, _parse_date (ds.getD j "") = some pj → ¬ pj ≤ t)) := by
  intro i
  induction i with
  | zero =>
    intro hi hpar
    obtain ⟨p, hp⟩ := Option.ne_none_iff_exists.mp (hpar _ (getD_mem_of_lt _ _ hi))
    have hp' : _parse_date (ds.getD 0 "") = some p := hp.symm
    by_cases hle : p ≤ t
    · right
      refine ⟨0, le_refl 0, ?_, ⟨p, hp', hle⟩, ?_⟩
      · simp only [scanBack, hp', if_pos hle]
      · intro j hjk hj pj hpj
        omega
    · left
      refine ⟨?_, ?_⟩
      · simp only [scanBack, hp', if_neg hle]
      · intro j hj pj hpj
        have hj0 : j = 0 := by omega
        subst hj0
        rw [hp'] at hpj
        injection hpj with e
        subst e
        exact hle
  | succ i ih =>
    intro hi hpar
    obtain ⟨p, hp⟩ := Option.ne_none_iff_exists.mp (hpar _ (getD_mem_of_lt _ _ hi))
    have hp' : _parse_date (ds.getD (i + 1) "") = some p := hp.symm
    by_cases hle : p ≤ t
    · right
      refine ⟨i + 1, le_refl _, ?_, ⟨p, hp', hle⟩, ?_⟩
      · simp only [scanBack, hp', if_pos hle]
      · intro j hjk hj pj hpj
        omega
    · have hii : i < ds.length := by omega
      rcases ih hii hpar with ⟨heq, hall⟩ | ⟨k, hk, heq, hpk, hint⟩
      · left
        refine ⟨?_, ?_⟩
        · simp only [scanBack, hp', if_neg hle]
          exact heq
        · intro j hj pj hpj
          rcases Nat.lt_or_ge j (i + 1) with hj' | hj'
          · exact hall j (by omega) pj hpj
          · have hje : j = i + 1 := by omega
            subst hje
            rw [hp'] at hpj
            injection hpj with e
            subst e
            exact hle
      · right
        refine ⟨k, by omega, ?_, hpk, ?_⟩
        · simp only [scanBack, hp', if_neg hle]
          exact heq
        · intro j hjk hj pj hpj
          rcases Nat.lt_or_ge j (i + 1) with hj' | hj'
          · exact hint j hjk (by omega) pj hpj
          · have hje : j = i + 1 := by omega
            subst hje
            rw [hp'] at hpj
            injection hpj with e
            subst e
            exact hle

theorem filterMap_parse_length (ds : List String)
    (hpar : ∀ d ∈ ds, _parse_date d ≠ none) :
    (ds.filterMap _parse_date).length = ds.length := by
  induction ds with
  | nil => rfl
  | cons d rest ih =>
    obtain ⟨p, hp⟩ := Option.ne_none_iff_exists.mp (hpar d (by simp))
    simp only [List.filterMap_cons, ← hp, List.length_cons]
    rw [ih (fun d' hd' => hpar d' (List.mem_cons_of_mem _ hd'))]

theorem filterMap_parse_getD (ds : List String)
    (hpar : ∀ d ∈ ds, _parse_date d ≠ none) :
    ∀ i, i < ds.length →
      _parse_date (ds.getD i "") =
        some ((ds.filterMap _parse_date).getD i ⟨0, 0, 0⟩) := by
  induction ds with
  | nil => intro i hi; exact absurd hi (by simp)
  | cons d rest ih =>
    intro i hi
    obtain ⟨p, hp⟩ := Option.ne_none_iff_exists.mp (hpar d (by simp))
    cases i with
    | zero =>
      simp only [List.getD_cons_zero, List.filterMap_cons, ← hp]
    | succ i' =>
      simp only [List.getD_cons_succ, List.filterMap_cons, ← hp]
      exact ih (fun d' hd' => hpar d' (List.mem_cons_of_mem _ hd')) i'
        (by simp only [List.length_cons] at hi; omega)

theorem parse_sorted_pointwise (ds : List String)
    (hpar : ∀ d ∈ ds, _parse_date d ≠ none)
    (hsort : List.Chain' (fun a b : PDate => a < b) (ds.filterMap _parse_date)) :
    ∀ i j, i < j → j < ds.length → ∀ pi pj,
      _parse_date (ds.getD i "") = some pi → _parse_date (ds.getD j "") = some pj →
      pi < pj := by
  intro i j hij hj pi pj hpi hpj
  have hlen := filterMap_parse_length ds hpar
  have hpw : List.Pairwise (fun a b : PDate => a < b) (ds.filterMap _parse_date) :=
    List.chain'_iff_pairwise.mp hsort
  have hi : i < ds.length := by omega
  rw [filterMap_parse_getD ds hpar i hi] at hpi
  rw [filterMap_parse_getD ds hpar j hj] at hpj
  injection hpi with e1
  injection hpj with e2
  rw [← e1, ← e2]
  rw [getD_eq_get _ _ (by omega : i < (ds.filterMap _parse_date).length),
     getD_eq_get _ _ (by omega : j < (ds.filterMap _parse_date).length)]
  exact List.pairwise_iff_get.mp hpw ⟨i, by omega⟩ ⟨j, by omega⟩ hij

/-- C1: over an ascending duplicate-free trading-date list and a parsable
target, `_nearest_trading_dates` never raises; if no trading date is ≤ the
target all three outputs are null; if `i` is the (unique) greatest index
whose date is ≤ the target, D0 is that date with D-1/D+1 its immediate list
neighbours (null at the ends); and when the target itself is a trading date,
D0 is exactly that date. -/
theorem claim_C1_nearest_trading_dates (dates_sorted : List String) (target : String)
    (t : PDate)
    (hpar : ∀ d ∈ dates_sorted, _parse_date d ≠ none)
    (hsort : List.Chain' (fun a b : PDate => a < b) (dates_sorted.filterMap _parse_date))
    (ht : _parse_date target = some t) :
    _nearest_trading_dates dates_sorted target ≠ none ∧
    ((∀ i, i < dates_sorted.length → ∀ pi,
        _parse_date (dates_sorted.getD i "") = some pi → ¬ pi ≤ t) →
      _nearest_trading_dates dates_sorted target = some (none, none, none)) ∧
    (∀ i, i < dates_sorted.length → ∀ pi,
      _parse_date (dates_sorted.getD i "") = some pi → pi ≤ t →
      (∀ j, j < dates_sorted.length → ∀ pj,
        _parse_date (dates_sorted.getD j "") = some pj → pj ≤ t → j ≤ i) →
      _nearest_trading_dates dates_sorted target =
        some (if i = 0 then none else some (dates_sorted.getD (i - 1) ""),
              some (dates_sorted.getD i ""),
              if i + 1 < dates_sorted.length then some (dates_sorted.getD (i + 1) "")
              else none)) ∧
    (∀ i, i < dates_sorted.length →
      _parse_date (dates_sorted.getD i "") = some t →
      ∃ dm dp, _nearest_trading_dates dates_sorted target =
        some (dm, some (dates_sorted.getD i ""), dp)) := by
  by_cases hnil : dates_sorted = []
  · subst hnil
    refine ⟨by simp [_nearest_trading_dates], fun _ => by simp [_nearest_trading_dates], ?_, ?_⟩
    · intro i hi
      exact absurd hi (by simp)
    · intro i hi
      exact absurd hi (by simp)
  · have hL : 0 < dates_sorted.length := List.length_pos.mpr hnil
    have hspec := scanBack_spec dates_sorted t (dates_sorted.length - 1) (by omega) hpar
    rcases hspec with ⟨heq, hall⟩ | ⟨k, hk, heq, ⟨pk, hpk, hpkle⟩, hint⟩
    · have hres : _nearest_trading_dates dates_sorted target = some (none, none, none) := by
        unfold _nearest_trading_dates
        rw [if_neg hnil, ht]
        split
        · rename_i h; cases h
        · rename_i t' h
          injection h with h
          subst h
          rw [heq]
      refine ⟨by rw [hres]; simp, fun _ => hres, ?_, ?_⟩
      · intro i hi pi hpi hle hmax
        exact absurd hle (hall i (by omega) pi hpi)
      · intro i hi hpi
        exact absurd (pdate_le_refl t) (hall i (by omega) t hpi)
    · have hres : _nearest_trading_dates dates_sorted target =
          some (if k = 0 then none else some (dates_sorted.getD (k - 1) ""),
                some (dates_sorted.getD k ""),
                if k + 1 < dates_sorted.length then some (dates_sorted.getD (k + 1) "")
                else none) := by
        unfold _nearest_trading_dates
        rw [if_neg hnil, ht]
        split
        · rename_i h; cases h
        · rename_i t' h
          injection h with h
          subst h
          rw [heq]
      refine ⟨by rw [hres]; simp, ?_, ?_, ?_⟩
      · intro hallt
        exact absurd hpkle (hallt k (by omega) pk hpk)
      · intro i hi pi hpi hle hmax
        have hik : k ≤ i := hmax k (by omega) pk hpk hpkle
        have hki : ¬ k < i := fun hki => (hint i hki (by omega) pi hpi) hle
        have hieq : i = k := by omega
        subst hieq
        exact hres
      · intro i hi hpi
        have hieq : i = k := by
          rcases Nat.lt_trichotomy i k with h1 | h1 | h1
          · exact absurd (parse_sorted_pointwise dates_sorted hpar hsort i k h1 (by omega)
              t pk hpi hpk) (fun hlt => pdate_le_lt_absurd hpkle hlt)
          · exact h1
          · exact absurd (pdate_le_refl t) (hint i h1 (by omega) t hpi)
        subst hieq
        exact ⟨_, _, hres⟩

/-- C1 witness: the spec's example list with target 2024-01-04; index 1 is the
greatest index at-or-before the target. -/
theorem claim_C1_witness :
    _nearest_trading_dates ["2024-01-02", "2024-01-03", "2024-01-05"] "2024-01-04" =
      some (if 1 = 0 then none
              else some (["2024-01-02", "2024-01-03", "2024-01-05"].getD 0 ""),
            some (["2024-01-02", "2024-01-03", "2024-01-05"].getD 1 ""),
            if 1 + 1 < ["2024-01-02", "2024-01-03", "2024-01-05"].length then
              some (["2024-01-02", "2024-01-03", "2024-01-05"].getD 2 "")
            else none) := by
  have hch : List.Chain' (fun a b : PDate => a < b)
      (["2024-01-02", "2024-01-03", "2024-01-05"].filterMap _parse_date) := by
    rw [show ["2024-01-02", "2024-01-03", "2024-01-05"].filterMap _parse_date =
        [⟨2024, 1, 2⟩, ⟨2024, 1, 3⟩, ⟨2024, 1, 5⟩] from by decide]
    simp only [List.chain'_cons, List.chain'_singleton, and_true]
    exact ⟨by decide, by decide⟩
  refine (claim_C1_nearest_trading_dates _ "2024-01-04" ⟨2024, 1, 4⟩
    (by decide) hch (by decide)).2.2.1 1 (by decide) ⟨2024, 1, 3⟩ (by decide) (by decide) ?_
  intro j hj pj hpj hle
  have hj3 : j < 3 := by simpa using hj
  interval_cases j
  · omega
  · omega
  · exfalso
    rw [show _parse_date (["2024-01-02", "2024-01-03", "2024-01-05"].getD 2 "") =
        some ⟨2024, 1, 5⟩ from by decide] at hpj
    injection hpj with e
    subst e
    exact absurd hle (by decide)

theorem nearest_isSome (ds : List String) (e : String)
    (hpar : ∀ d ∈ ds, _parse_date d ≠ none) (he : _parse_date e ≠ none) :
    ∃ tri, _nearest_trading_dates ds e = some tri := by
  by_cases hnil : ds = []
  · subst hnil
    exact ⟨(none, none, none), by simp [_nearest_trading_dates]⟩
  · obtain ⟨t, ht⟩ := Option.ne_none_iff_exists.mp he
    have ht' : _parse_date e = some t := ht.symm
    have hL : 0 < ds.length := List.length_pos.mpr hnil
    rcases scanBack_spec ds t (ds.length - 1) (by omega) hpar with
      ⟨heq, _⟩ | ⟨k, _, heq, _, _⟩
    · refine ⟨(none, none, none), ?_⟩
      unfold _nearest_trading_dates
      rw [if_neg hnil, ht']
      split
      · rename_i h; cases h
      · rename_i t0 h
        injection h with h
        subst h
        rw [heq]
    · refine ⟨(if k = 0 then none else some (ds.getD (k - 1) ""), some (ds.getD k ""),
        if k + 1 < ds.length then some (ds.getD (k + 1) "") else none), ?_⟩
      unfold _nearest_trading_dates
      rw [if_neg hnil, ht']
      split
      · rename_i h; cases h
      · rename_i t0 h
        injection h with h
        subst h
        rw [heq]

theorem mkEventMove_isSome (ds : List String) (m : String → Option ℚ)
    (ev : String × Option String)
    (hpar : ∀ d ∈ ds, _parse_date d ≠ none) (he : _parse_date ev.1 ≠ none) :
    ∃ r, mkEventMove ds m ev = some r ∧ r.earnings_date = ev.1 := by
  obtain ⟨tri, htri⟩ := nearest_isSome ds ev.1 hpar he
  exact ⟨mkFromTriple m ev.1 ev.2 tri, by simp [mkEventMove, htri], rfl⟩

theorem mkEventMove_none_of_unparsable (ds : List String) (m : String → Option ℚ)
    (ev : String × Option String) (hnil : ds ≠ []) (he : _parse_date ev.1 = none) :
    mkEventMove ds m ev = none := by
  have hn : _nearest_trading_dates ds ev.1 = none := by
    unfold _nearest_trading_dates
    rw [if_neg hnil, he]
  simp [mkEventMove, hn]

theorem compute_none_of_mem (ds : List String) (m : String → Option ℚ)
    (evs : List (String × Option String))
    (h : ∃ ev ∈ evs, mkEventMove ds m ev = none) :
    compute_earnings_moves ds m evs = none := by
  induction evs with
  | nil =>
    rcases h with ⟨ev, h1, _⟩
    cases h1
  | cons e rest ih =>
    rcases h with ⟨ev, h1, h2⟩
    simp only [compute_earnings_moves]
    rcases List.mem_cons.mp h1 with rfl | h3
    · rw [h2]
    · have hrest : compute_earnings_moves ds m rest = none := ih ⟨ev, h3, h2⟩
      cases he : mkEventMove ds m e with
      | none => rfl
      | some r => simp only [hrest]

theorem compute_total (ds : List String) (m : String → Option ℚ)
    (hpar : ∀ d ∈ ds, _parse_date d ≠ none) :
    ∀ evs : List (String × Option String), (∀ ev ∈ evs, _parse_date ev.1 ≠ none) →
    ∃ l, compute_earnings_moves ds m evs = some l ∧ l.length = evs.length ∧
      ∀ i, i < evs.length →
        (l.getD i dummyMove).earnings_date = (evs.getD i ("", none)).1 := by
  intro evs
  induction evs with
  | nil => exact fun _ => ⟨[], rfl, rfl, fun i hi => absurd hi (by simp)⟩
  | cons e rest ih =>
    intro hev
    obtain ⟨r, hr, hre⟩ := mkEventMove_isSome ds m e hpar (hev e (by simp))
    obtain ⟨l, hl, hlen, hpt⟩ := ih (fun ev h => hev ev (List.mem_cons_of_mem _ h))
    refine ⟨r :: l, ?_, by simp [hlen], ?_⟩
    · simp only [compute_earnings_moves, hr, hl]
    · intro i hi
      cases i with
      | zero => simpa using hre
      | succ i' =>
        simp only [List.getD_cons_succ]
        exact hpt i' (by simp only [List.length_cons] at hi; omega)

/-- C9 counterexample: (a) all event dates parse, yet a trading-date index
entry "2024-13-01" (which the claim's universal quantification over indices
admits) raises; (b) with an empty index an unparsable event date does NOT
fail — a null-field record is emitted — contradicting "fails immediately". -/
theorem claim_C9_counterexample :
    (compute_earnings_moves ["2024-13-01"] (fun _ => none) [("2025-01-01", some "BMO")] =
        none ∧
      _parse_date "2025-01-01" ≠ none) ∧
    (∃ l, compute_earnings_moves [] (fun _ => none) [("garbage", some "BMO")] = some l ∧
      l.length = 1) ∧
    _parse_date "garbage" = none := by
  refine ⟨⟨by decide, by decide⟩,
    ⟨[⟨"garbage", "BMO", none, none, none, none, none, none, none, none, none,
      some "BMO_like", "missing_bmo_inputs|missing_amc_inputs"⟩], by decide, rfl⟩,
    by decide⟩

/-- C9 (amended): when every event date AND every trading-date-index entry
parses, the computation returns (for every close mapping) exactly one record
per event, in input order, carrying its event date; and when the index is
nonempty, any unparsable event date makes the whole computation raise. -/
theorem claim_C9_amended (ds : List String) (m : String → Option ℚ)
    (evs : List (String × Option String))
    (hpar : ∀ d ∈ ds, _parse_date d ≠ none)
    (hev : ∀ ev ∈ evs, _parse_date ev.1 ≠ none) :
    (∃ l, compute_earnings_moves ds m evs = some l ∧ l.length = evs.length ∧
      ∀ i, i < evs.length →
        (l.getD i dummyMove).earnings_date = (evs.getD i ("", none)).1) ∧
    (ds ≠ [] → ∀ evs' : List (String × Option String),
      (∃ ev ∈ evs', _parse_date ev.1 = none) →
      compute_earnings_moves ds m evs' = none) := by
  refine ⟨compute_total ds m hpar evs hev, ?_⟩
  intro hnil evs' hex
  rcases hex with ⟨ev, h1, h2⟩
  exact compute_none_of_mem ds m evs'
    ⟨ev, h1, mkEventMove_none_of_unparsable ds m ev hnil h2⟩

/-- Event list for the C9 witness. -/
def wEvents : List (String × Option String) :=
  [("2024-01-03", some "AMC"), ("2024-01-04", some "bmo")]

/-- C9 witness. -/
theorem claim_C9_witness :
    ∃ l, compute_earnings_moves wDates wCloses wEvents = some l ∧
      l.length = wEvents.length ∧
      ∀ i, i < wEvents.length →
        (l.getD i dummyMove).earnings_date = (wEvents.getD i ("", none)).1 :=
  (claim_C9_amended wDates wCloses wEvents (by decide) (by decide)).1
